import Mathlib

/-!
Shallow embedding of `src/llm_wrapper.py` (class `LLM`), the streaming client
adapter for OpenAI-compatible chat-completion APIs.

Python strings are modelled as `List Char` (named `Str`).  The external
collaborators (the OpenAI transport, PIL image codec, lmstudio control API,
and the Python `json` module) are modelled: the transport's delta stream is
the input `List Delta`, image encoding is an abstract encoder argument, and
`json.loads` is `json_loads`, a faithful executable model of the JSON
grammar on the subset exercised here (objects, arrays, strings with escapes,
integers, booleans, null; full-input consumption required).
-/

namespace LLMWrapper

/-- Python `str` is modelled as a list of characters. -/
abbrev Str := List Char

/-- Truthiness of an optional string, as Python evaluates `if s:` where `s`
is either a string or `None`: `None` and `""` are falsy. -/
def truthyStr : Option Str → Bool
  | some (_ :: _) => true
  | _ => false

/-- Python `s or dflt` for an optional string `s`: `None` and `""` give `dflt`. -/
def pyOrElse (s : Option Str) (dflt : Str) : Str :=
  match s with
  | some (c :: cs) => c :: cs
  | _ => dflt

/-- `pat` is a prefix of `s` (character-wise). -/
def isPrefixL : Str → Str → Bool
  | [], _ => true
  | _ :: _, [] => false
  | p :: ps, c :: cs => p == c && isPrefixL ps cs

/-- Python `pat in s` (substring containment). -/
def strContains (s pat : Str) : Bool :=
  match s with
  | [] => pat.isEmpty
  | _ :: rest => isPrefixL pat s || strContains rest pat

/-- Fuel-driven worker for `strReplace`; fuel bounds the number of characters
consumed from `s`, so `s.length` fuel always suffices. -/
def strReplaceF : Nat → Str → Str → Str → Str
  | 0, s, _, _ => s
  | fuel + 1, s, pat, repl =>
    match s with
    | [] => []
    | c :: rest =>
      if isPrefixL pat s && !pat.isEmpty then
        repl ++ strReplaceF fuel (s.drop pat.length) pat repl
      else
        c :: strReplaceF fuel rest pat repl

/-- Python `s.replace(pat, repl)`: replace every (leftmost, non-overlapping)
occurrence of `pat` in `s` by `repl`.  For the empty pattern Python interleaves
`repl` everywhere; the wrapper only ever replaces the nonempty markers
`"<think>"` and `"</think>"`, so that case is irrelevant and we return `s`. -/
def strReplace (s pat repl : Str) : Str :=
  strReplaceF s.length s pat repl

/-- Characters stripped by Python `str.strip()` with no argument. -/
def pyIsSpace (c : Char) : Bool :=
  c == ' ' || c == '\t' || c == '\n' || c == '\r' || c == '\x0b' || c == '\x0c'

/-- Python `s.strip()`: drop whitespace from both ends. -/
def pyStrip (s : Str) : Str :=
  ((s.dropWhile pyIsSpace).reverse.dropWhile pyIsSpace).reverse

/-! ## JSON values and a model of `json.loads` -/

/-- A JSON value, as produced by the Python `json` module.  Numbers are
modelled as integers: the wrapper's claims only exercise integer payloads,
and the parser model rejects fractional syntax (a conservative restriction
of `json.loads`). -/
inductive JVal where
  | null
  | b (x : Bool)
  | i (n : Int)
  | s (cs : Str)
  | arr (xs : List JVal)
  | obj (kvs : List (Str × JVal))

/-- JSON whitespace skipping. -/
def skipWs (cs : Str) : Str :=
  cs.dropWhile fun c => c == ' ' || c == '\t' || c == '\n' || c == '\r'

/-- Hexadecimal digit value, computed on the character's code point:
`0`-`9` map to 0-9, `a`-`f` and `A`-`F` to 10-15, all else is `none`. -/
def hexDigit (c : Char) : Option Nat :=
  let n := c.toNat
  if 48 ≤ n && n ≤ 57 then some (n - 48)
  else if 97 ≤ n && n ≤ 102 then some (n - 87)
  else if 65 ≤ n && n ≤ 70 then some (n - 55)
  else none

/-- Parse the body of a JSON string literal (after the opening quote),
returning the decoded characters and the rest after the closing quote. -/
def pJStr : Nat → Str → Option (Str × Str)
  | 0, _ => none
  | _ + 1, [] => none
  | fuel + 1, c :: rest =>
    if c == '"' then some ([], rest)
    else if c == '\\' then
      match rest with
      | [] => none
      | e :: rest2 =>
        let cont (d : Char) (r : Str) : Option (Str × Str) :=
          match pJStr fuel r with
          | some (tail, r2) => some (d :: tail, r2)
          | none => none
        if e == '"' then cont '"' rest2
        else if e == '\\' then cont '\\' rest2
        else if e == '/' then cont '/' rest2
        else if e == 'b' then cont '\x08' rest2
        else if e == 'f' then cont '\x0c' rest2
        else if e == 'n' then cont '\n' rest2
        else if e == 'r' then cont '\r' rest2
        else if e == 't' then cont '\t' rest2
        else if e == 'u' then
          match rest2 with
          | h1 :: h2 :: h3 :: h4 :: rest3 =>
            match hexDigit h1, hexDigit h2, hexDigit h3, hexDigit h4 with
            | some a, some b, some c3, some d4 =>
              cont (Char.ofNat (((a * 16 + b) * 16 + c3) * 16 + d4)) rest3
            | _, _, _, _ => none
          | _ => none
        else none
    else
      match pJStr fuel rest with
      | some (tail, r2) => some (c :: tail, r2)
      | none => none

/-- Take a run of decimal digits. -/
def takeDigits : Str → Str × Str
  | [] => ([], [])
  | c :: cs =>
    if c.isDigit then
      let (ds, r) := takeDigits cs
      (c :: ds, r)
    else
      ([], c :: cs)

/-- Decimal digits to a natural number. -/
def digitsToNat (ds : Str) : Nat :=
  ds.foldl (fun a c => a * 10 + (c.toNat - '0'.toNat)) 0

/-- Parse a JSON integer (optional minus sign, digit run). -/
def pJNum (cs : Str) : Option (JVal × Str) :=
  match cs with
  | '-' :: rest =>
    match takeDigits rest with
    | ([], _) => none
    | (ds, r) => some (JVal.i (-(digitsToNat ds : Int)), r)
  | _ =>
    match takeDigits cs with
    | ([], _) => none
    | (ds, r) => some (JVal.i (digitsToNat ds : Int), r)

mutual

/-- Parse one JSON value; fuel bounds recursion (input length plus two always
suffices since every recursive step consumes at least one character first). -/
def pJVal : Nat → Str → Option (JVal × Str)
  | 0, _ => none
  | fuel + 1, cs =>
    match skipWs cs with
    | 'n' :: 'u' :: 'l' :: 'l' :: rest => some (JVal.null, rest)
    | 't' :: 'r' :: 'u' :: 'e' :: rest => some (JVal.b true, rest)
    | 'f' :: 'a' :: 'l' :: 's' :: 'e' :: rest => some (JVal.b false, rest)
    | '"' :: rest =>
      match pJStr (rest.length + 1) rest with
      | some (sv, r) => some (JVal.s sv, r)
      | none => none
    | '[' :: rest =>
      (match skipWs rest with
       | ']' :: r => some (JVal.arr [], r)
       | _ =>
         match pJElems fuel (skipWs rest) with
         | some (xs, r) => some (JVal.arr xs, r)
         | none => none)
    | '{' :: rest =>
      (match skipWs rest with
       | '}' :: r => some (JVal.obj [], r)
       | _ =>
         match pJMembers fuel (skipWs rest) with
         | some (kvs, r) => some (JVal.obj kvs, r)
         | none => none)
    | other => pJNum other

/-- Parse one-or-more comma-separated array elements up to `]`. -/
def pJElems : Nat → Str → Option (List JVal × Str)
  | 0, _ => none
  | fuel + 1, cs =>
    match pJVal fuel cs with
    | none => none
    | some (v, r) =>
      match skipWs r with
      | ',' :: r2 =>
        (match pJElems fuel r2 with
         | some (xs, r3) => some (v :: xs, r3)
         | none => none)
      | ']' :: r2 => some ([v], r2)
      | _ => none

/-- Parse one-or-more comma-separated object members up to `}`. -/
def pJMembers : Nat → Str → Option (List (Str × JVal) × Str)
  | 0, _ => none
  | fuel + 1, cs =>
    match skipWs cs with
    | '"' :: rest =>
      match pJStr (rest.length + 1) rest with
      | none => none
      | some (k, r) =>
        match skipWs r with
        | ':' :: r2 =>
          (match pJVal fuel r2 with
           | none => none
           | some (v, r3) =>
             match skipWs r3 with
             | ',' :: r4 =>
               (match pJMembers fuel r4 with
                | some (kvs, r5) => some ((k, v) :: kvs, r5)
                | none => none)
             | '}' :: r4 => some ([(k, v)], r4)
             | _ => none)
        | _ => none
    | _ => none

end

/-- Model of Python `json.loads`: parse a whole JSON document; trailing
whitespace is allowed, any other trailing input is an error (`none`). -/
def json_loads (cs : Str) : Option JVal :=
  match pJVal (cs.length + 2) cs with
  | some (v, rest) => if skipWs rest = [] then some v else none
  | none => none

/-! ## Model of `answer.encode('utf-8').decode('unicode_escape')` -/

/-- Model of CPython's `unicode_escape` decoding of a `utf-8`-encoded string
(`llm_wrapper.py` line 202), faithful on ASCII input: backslash escape
sequences are interpreted, unknown escapes keep the backslash, and a
malformed escape (trailing backslash, bad `\x`/`\u`/`\U` digits, `\N`)
raises — modelled as `none`.  (On non-ASCII input CPython additionally
reinterprets utf-8 bytes as latin-1; the wrapper's claims only exercise
ASCII, so that byte-level detour is not modelled.)  Fuel bounds the
characters consumed, so the input length always suffices. -/
def unicodeUnescapeF : Nat → Str → Option Str
  | 0, s => if s.isEmpty then some [] else none
  | _ + 1, [] => some []
  | fuel + 1, '\\' :: rest =>
    match rest with
    | [] => none
    | e :: rest2 =>
      let cont (ds : Str) (r : Str) : Option Str :=
        match unicodeUnescapeF fuel r with
        | some tail => some (ds ++ tail)
        | none => none
      if e == '\n' then cont [] rest2
      else if e == '\\' then cont ['\\'] rest2
      else if e == '\'' then cont ['\''] rest2
      else if e == '"' then cont ['"'] rest2
      else if e == 'a' then cont ['\x07'] rest2
      else if e == 'b' then cont ['\x08'] rest2
      else if e == 'f' then cont ['\x0c'] rest2
      else if e == 'n' then cont ['\n'] rest2
      else if e == 'r' then cont ['\r'] rest2
      else if e == 't' then cont ['\t'] rest2
      else if e == 'v' then cont ['\x0b'] rest2
      else if e == 'x' then
        match rest2 with
        | h1 :: h2 :: rest3 =>
          match hexDigit h1, hexDigit h2 with
          | some a, some b => cont [Char.ofNat (a * 16 + b)] rest3
          | _, _ => none
        | _ => none
      else if e == 'u' then
        match rest2 with
        | h1 :: h2 :: h3 :: h4 :: rest3 =>
          match hexDigit h1, hexDigit h2, hexDigit h3, hexDigit h4 with
          | some a, some b, some c, some d =>
            cont [Char.ofNat (((a * 16 + b) * 16 + c) * 16 + d)] rest3
          | _, _, _, _ => none
        | _ => none
      else if e == 'N' then none
      else if '0' ≤ e && e ≤ '7' then cont [Char.ofNat (e.toNat - '0'.toNat)] rest2
      else cont ['\\', e] rest2
  | fuel + 1, c :: rest =>
    match unicodeUnescapeF fuel rest with
    | some tail => some (c :: tail)
    | none => none

/-- Entry point of the `unicode_escape` model. -/
def unicodeUnescape (s : Str) : Option Str := unicodeUnescapeF s.length s

/-! ## Stream events and the aggregator state -/

/-- The value carried by the final `answer`: after structured-output decoding
it is either a parsed JSON value or the raw string (`llm_wrapper.py`
lines 196-206); without structured output it is always the raw string. -/
inductive AVal where
  | str (cs : Str)
  | json (j : JVal)

/-- A finalized tool call (`llm_wrapper.py` line 215): the dict
`{"id": ..., "name": ..., "arguments": ...}` where `arguments` is the parsed
JSON value or the `{"_raw": ...}` fallback object. -/
structure FinalToolCall where
  id : Str
  name : Str
  arguments : JVal

/-- The terminal summary payload (`llm_wrapper.py` lines 241-266): `reasoning`
is present only when thinking is shown and non-blank, `tool_calls` only when
the pending list is nonempty. -/
structure Summary where
  reasoning : Option Str
  answer : AVal
  tool_calls : Option (List FinalToolCall)

/-- A stream event, the dicts `{"type": ..., "content": ...}` yielded by
`LLM.stream_response`. -/
inductive Event where
  | reasoning (c : Str)
  | answer (c : AVal)
  | tool_result (name : Str) (result : JVal)
  | tool_call (tc : FinalToolCall)
  | final (s : Summary)
  | done

/-- One tool-call fragment inside a delta (`chunk.choices[0].delta.tool_calls`
elements): an optional id, and the `function` part's optional name and
arguments fields.  `none` models an absent/`None` field. -/
structure ToolFrag where
  id : Option Str
  name : Option Str
  arguments : Option Str

/-- One delta chunk (`chunk.choices[0].delta`): optional reasoning text,
content text, and tool-call fragment list.  A `None`/absent delta in the
Python loop is skipped exactly like an all-`none` record, so the input stream
is modelled as `List Delta`. -/
structure Delta where
  reasoning : Option Str
  content : Option Str
  tool_calls : Option (List ToolFrag)

/-- One entry of `tool_calls_accumulator`: growing name and argument buffer. -/
structure ToolAcc where
  name : Str
  arguments : Str

/-- The aggregator's mutable state (`llm_wrapper.py` lines 145-148):
`thinking`, `answer`, `tool_calls_accumulator` (an insertion-ordered dict,
modelled as an association list with unique keys), and `inside_think`. -/
structure AggSt where
  thinking : Str
  answer : Str
  acc : List (Str × ToolAcc)
  inside_think : Bool

/-- The initial aggregator state. -/
def initSt : AggSt := ⟨[], [], [], false⟩

/-- Association-list lookup, modelling Python dict indexing /
`tool_id in tool_calls_accumulator`. -/
def alookup : List (Str × ToolAcc) → Str → Option ToolAcc
  | [], _ => none
  | (k, v) :: rest, tid => if k = tid then some v else alookup rest tid

/-- Association-list update of the (unique) entry at a key, modelling Python
dict item mutation; no-op when the key is absent. -/
def aupdate : List (Str × ToolAcc) → Str → (ToolAcc → ToolAcc) → List (Str × ToolAcc)
  | [], _, _ => []
  | (k, v) :: rest, tid, f =>
    if k = tid then (k, f v) :: rest else (k, v) :: aupdate rest tid f

/-- Python `tool_call.id or "0"` (`llm_wrapper.py` line 187). -/
def pyIdOr0 (id : Option Str) : Str := pyOrElse id ['0']

/-- Process one tool-call fragment into the accumulator
(`llm_wrapper.py` lines 186-194). -/
def toolFragStep (acc : List (Str × ToolAcc)) (f : ToolFrag) : List (Str × ToolAcc) :=
  let tid := pyIdOr0 f.id
  let acc1 :=
    match alookup acc tid with
    | none => acc ++ [(tid, ⟨f.name.getD [], []⟩)]
    | some _ => acc
  let acc2 :=
    if truthyStr f.name then aupdate acc1 tid (fun e => { e with name := f.name.getD [] })
    else acc1
  if truthyStr f.arguments then
    aupdate acc2 tid (fun e => { e with arguments := e.arguments ++ f.arguments.getD [] })
  else acc2

/-- The reasoning-span open marker. -/
def thinkOpen : Str := "<think>".toList

/-- The reasoning-span close marker. -/
def thinkClose : Str := "</think>".toList

/-- Process one truthy content fragment (`llm_wrapper.py` lines 164-178):
marker transitions and stripping first (open marker checked on the incoming
text, close marker checked on the open-stripped text, exactly as the two
sequential `if` statements), then the whole remainder appended to the
accumulator selected by the state after the transitions, with the
corresponding live event unless suppressed. -/
def contentPart (hide_thinking structured_output : Bool) (s : AggSt) (c : Str) :
    AggSt × List Event :=
  let p1 :=
    if strContains c thinkOpen then (true, strReplace c thinkOpen [])
    else (s.inside_think, c)
  let p2 :=
    if strContains p1.2 thinkClose then (false, strReplace p1.2 thinkClose [])
    else p1
  if p2.1 then
    ({ s with thinking := s.thinking ++ p2.2, inside_think := p2.1 },
     if !hide_thinking then [Event.reasoning p2.2] else [])
  else
    ({ s with answer := s.answer ++ p2.2, inside_think := p2.1 },
     if !structured_output then [Event.answer (AVal.str p2.2)] else [])

/-- Truthiness of the optional tool-call fragment list (`if tool_calls:`). -/
def truthyTC : Option (List ToolFrag) → Bool
  | some (_ :: _) => true
  | _ => false

/-- Process one delta chunk (`llm_wrapper.py` lines 152-194): skip when all
three fields are falsy, else handle content, then reasoning, then tool-call
fragments, collecting the yielded events in order. -/
def chunkStep (hide_thinking structured_output : Bool) (s : AggSt) (d : Delta) :
    AggSt × List Event :=
  if !(truthyStr d.content || truthyTC d.tool_calls || truthyStr d.reasoning) then
    (s, [])
  else
    let r1 :=
      if truthyStr d.content then contentPart hide_thinking structured_output s (d.content.getD [])
      else (s, [])
    let r2 :=
      if truthyStr d.reasoning then
        ({ r1.1 with thinking := r1.1.thinking ++ d.reasoning.getD [] },
         r1.2 ++ (if !hide_thinking then [Event.reasoning (d.reasoning.getD [])] else []))
      else r1
    if truthyTC d.tool_calls then
      ({ r2.1 with acc := (d.tool_calls.getD []).foldl toolFragStep r2.1.acc }, r2.2)
    else r2

/-- Run the delta loop over the whole chunk sequence. -/
def runChunks (hide_thinking structured_output : Bool) (s : AggSt) :
    List Delta → AggSt × List Event
  | [] => (s, [])
  | d :: ds =>
    let r1 := chunkStep hide_thinking structured_output s d
    let r2 := runChunks hide_thinking structured_output r1.1 ds
    (r2.1, r1.2 ++ r2.2)

/-! ## Post-stream processing -/

/-- Structured-output decoding (`llm_wrapper.py` lines 196-206): strict
`json.loads` first; on failure, `unicode_escape` the text and re-parse; on
any failure there, the original raw text unchanged.  Total — never raises. -/
def decodeStructured (answer : Str) : AVal :=
  match json_loads answer with
  | some data => AVal.json data
  | none =>
    match unicodeUnescape answer with
    | some decoded =>
      match json_loads decoded with
      | some data => AVal.json data
      | none => AVal.str answer
    | none => AVal.str answer

/-- Finalize one accumulated argument buffer (`llm_wrapper.py` lines 211-214):
parse `arguments or "{}"`; on failure fall back to `{"_raw": arguments or ""}`
(both `or` defaults collapse: an empty buffer parses as `"{}"`, and the raw
fallback of an empty buffer is the empty string, i.e. the buffer itself). -/
def finalizeArgs (arguments : Str) : JVal :=
  match json_loads (if arguments.isEmpty then "{}".toList else arguments) with
  | some args => args
  | none => JVal.obj [("_raw".toList, JVal.s arguments)]

/-- Build `final_tool_calls` from the accumulator (`llm_wrapper.py`
lines 209-215), preserving dict insertion order. -/
def finalizeToolCalls (acc : List (Str × ToolAcc)) : List FinalToolCall :=
  acc.map fun e => ⟨e.1, e.2.name, finalizeArgs e.2.arguments⟩

/-- A registered callable: invoked on the parsed argument object, `none`
models the invocation raising (including `**`-unpacking failures). -/
abbrev Callee := JVal → Option JVal

/-- The dispatch loop (`llm_wrapper.py` lines 217-238): iterate the finalized
calls; a call whose name is registered is removed from the pending list —
with a `tool_result` event if the invocation returns, silently (only a
diagnostic print) if it raises; an unregistered call stays pending and is
yielded as a `tool_call` event.  (The Python iterates a copy and removes by
value; ids are dict keys, hence distinct, so per-element processing is the
same.) -/
def dispatchLoop (reg : Str → Option Callee) :
    List FinalToolCall → List Event × List FinalToolCall
  | [] => ([], [])
  | tc :: rest =>
    let r := dispatchLoop reg rest
    match reg tc.name with
    | some f =>
      match f tc.arguments with
      | some result => (Event.tool_result tc.name result :: r.1, r.2)
      | none => (r.1, r.2)
    | none => (Event.tool_call tc :: r.1, tc :: r.2)

/-- Build the terminal summary (`llm_wrapper.py` lines 241-266). -/
def mkSummary (hide_thinking : Bool) (thinking : Str) (answer : AVal)
    (final_tool_calls : List FinalToolCall) : Summary :=
  if hide_thinking || pyStrip thinking = [] then
    { reasoning := none, answer := answer,
      tool_calls := if final_tool_calls.isEmpty then none else some final_tool_calls }
  else
    { reasoning := some thinking, answer := answer,
      tool_calls := if final_tool_calls.isEmpty then none else some final_tool_calls }

/-- The full event sequence of `LLM.stream_response` after the transport
yields the chunk list: the delta loop, the optional structured-output answer
event, tool finalization and dispatch, the optional terminal summary, and
the `done` sentinel.  `reg` is the `callable_tools` mapping built from the
caller's native callables; the callables themselves are opaque, so the
mapping is a parameter. -/
def stream_response (reg : Str → Option Callee)
    (structured_output final hide_thinking : Bool) (chunks : List Delta) :
    List Event :=
  let r := runChunks hide_thinking structured_output initSt chunks
  let answerVal :=
    if structured_output then decodeStructured r.1.answer else AVal.str r.1.answer
  let evsA := if structured_output then [Event.answer answerVal] else []
  let d := dispatchLoop reg (finalizeToolCalls r.1.acc)
  let evsF :=
    if final then [Event.final (mkSummary hide_thinking r.1.thinking answerVal d.2)] else []
  r.2 ++ evsA ++ d.1 ++ evsF ++ [Event.done]

/-! ## Content normalizer (`llm_wrapper.py` lines 83-111) -/

/-- The value stored under an `image_url` key: either a bare URL string or a
dict (modelled as its key/value pairs). -/
inductive UrlData where
  | str (s : Str)
  | dict (d : List (Str × Str))

/-- One message content block (`msg["content"][i]`): a text block, an
`image`-tagged block carrying whichever of the three source keys are present
(checked in the code's order: `image_path`, then `image_pil`, then
`image_url`), an already-canonical `image_url` block, or any other tag,
which the loop never touches.  In-memory PIL images are opaque, hence the
type parameter `ψ`. -/
inductive CBlock (ψ : Type) where
  | text (s : Str)
  | image (image_path : Option Str) (image_pil : Option ψ) (image_url : Option UrlData)
  | image_url (u : UrlData)
  | other (tag : Str)

/-- The `data:image/png;base64,` URI built around a base64 payload. -/
def dataUri (b64 : Str) : Str := "data:image/png;base64,".toList ++ b64

/-- Normalize one content block (`llm_wrapper.py` lines 87-111).  `encPathPNG`
models `Image.open` + PNG re-encode + base64 of a file path; `encPilPNG` the
same for an in-memory image.  An `image` block with none of the three source
keys falls through every branch and is left unchanged — the code has no
`else` and raises nothing there. -/
def normalizeBlock {ψ : Type} (encPathPNG : Str → Str) (encPilPNG : ψ → Str) :
    CBlock ψ → CBlock ψ
  | .image p pil url =>
    match p with
    | some path => .image_url (.dict [("url".toList, dataUri (encPathPNG path))])
    | none =>
      match pil with
      | some img => .image_url (.dict [("url".toList, dataUri (encPilPNG img))])
      | none =>
        match url with
        | some (.str s) => .image_url (.dict [("url".toList, s)])
        | some (.dict d) => .image_url (.dict d)
        | none => .image none none none
  | b => b

/-- Normalize a message list (`llm_wrapper.py` lines 83-111): only in
`vllm_mode`, every content block of every message is rewritten in place. -/
def normalizeMessages {ψ : Type} (vllm_mode : Bool) (encPathPNG : Str → Str)
    (encPilPNG : ψ → Str) (messages : List (List (CBlock ψ))) : List (List (CBlock ψ)) :=
  if vllm_mode then messages.map fun content => content.map (normalizeBlock encPathPNG encPilPNG)
  else messages

/-! ## Tool schema compiler (`llm_wrapper.py` lines 40-74) -/

/-- The closed primitive-type table (`llm_wrapper.py` lines 41-48), keyed by
the Python type's `__name__`; an unlisted type raises `KeyError` (`none`). -/
def typesTable (t : Str) : Option Str :=
  if t = "str".toList then some "string".toList
  else if t = "int".toList then some "integer".toList
  else if t = "float".toList then some "number".toList
  else if t = "bool".toList then some "boolean".toList
  else if t = "list".toList then some "array".toList
  else if t = "dict".toList then some "object".toList
  else none

/-- A native callable as the compiler introspects it: `__name__`, `__doc__`
(`none` when the function has no docstring), and `__annotations__` as an
ordered list of (parameter name, annotated type's `__name__`). -/
structure NativeTool where
  name : Str
  doc : Option Str
  annots : List (Str × Str)

/-- The emitted `function` wire schema: name, description, the
`parameters.properties` mapping and the `parameters.required` list. -/
structure FunSchema where
  name : Str
  description : Str
  properties : List (Str × Str)
  required : List Str

/-- The annotation loop (`llm_wrapper.py` lines 56-61): skip the `return`
annotation; translate every other entry through the type table (failing like
the Python `KeyError` on an unlisted type), recording it in `properties` and
appending its name to `required`. -/
def compileParams : List (Str × Str) → Option (List (Str × Str) × List Str)
  | [] => some ([], [])
  | (k, v) :: rest =>
    if k = "return".toList then compileParams rest
    else
      match typesTable v with
      | none => none
      | some ty =>
        match compileParams rest with
        | none => none
        | some r => some ((k, ty) :: r.1, k :: r.2)

/-- Compile one native callable (`llm_wrapper.py` lines 50-73): `__doc__` of
`None` fails (the Python `None.strip()` raises `AttributeError`), otherwise
name and description are stripped and the parameter loop runs. -/
def compileTool (t : NativeTool) : Option FunSchema :=
  match t.doc with
  | none => none
  | some doc =>
    match compileParams t.annots with
    | none => none
    | some r => some ⟨pyStrip t.name, pyStrip doc, r.1, r.2⟩

/-! ## Event classifiers and spec-side observation functions -/

/-- Is this the `done` sentinel event? -/
def isDone : Event → Bool
  | .done => true
  | _ => false

/-- Is this the terminal summary event? -/
def isFinalEv : Event → Bool
  | .final _ => true
  | _ => false

/-- Is this a live text event (reasoning or answer), the only kinds the delta
loop yields? -/
def isStreamEv : Event → Bool
  | .reasoning _ => true
  | .answer _ => true
  | _ => false

/-- Observation: the marker-stripped remainder of a content fragment — the
open marker stripped first, then the close marker, as the two sequential
`replace` calls do (stripping an absent marker is the identity). -/
def specStrippedContent (c : Str) : Str :=
  strReplace (strReplace c thinkOpen []) thinkClose []

/-- Observation: the span state after both marker transitions of one content
fragment — any close-marker occurrence (checked on the open-stripped text,
as the code does) wins, else any open-marker occurrence, else the incoming
state. -/
def specStateAfterMarkers (inside : Bool) (c : Str) : Bool :=
  if strContains (strReplace c thinkOpen []) thinkClose then false
  else if strContains c thinkOpen then true
  else inside

/-- Observation: the argument buffer accumulated for a tool-call id (empty
when the id has no entry). -/
def getArgs (acc : List (Str × ToolAcc)) (tid : Str) : Str :=
  match alookup acc tid with
  | some e => e.arguments
  | none => []

/-- Observation: the concatenation, in arrival order, of the truthy argument
fragments destined for a tool-call id within one fragment list. -/
def argFrags (tid : Str) : List ToolFrag → Str
  | [] => []
  | f :: fs => (if pyIdOr0 f.id = tid then f.arguments.getD [] else []) ++ argFrags tid fs

/-- Observation: the concatenation, in arrival order, of all argument
fragments destined for a tool-call id across a whole delta sequence. -/
def argFragsChunks (tid : Str) : List Delta → Str
  | [] => []
  | d :: ds => argFrags tid (d.tool_calls.getD []) ++ argFragsChunks tid ds

/-! ## Helper lemmas -/

/-- Replacing a pattern that does not occur is the identity (fuel version). -/
theorem strReplaceF_of_not_contains (pat repl : Str) :
    ∀ (fuel : Nat) (s : Str), strContains s pat = false → strReplaceF fuel s pat repl = s := by
  intro fuel
  induction fuel with
  | zero => intro s _; rfl
  | succ n ih =>
    intro s h
    match s with
    | [] => rfl
    | c :: rest =>
      simp only [strContains, Bool.or_eq_false_iff] at h
      simp only [strReplaceF, h.1, Bool.false_and, Bool.and_self, if_neg Bool.false_ne_true,
        ih rest h.2]

/-- Replacing a pattern that does not occur is the identity. -/
theorem strReplace_of_not_contains (s pat repl : Str) (h : strContains s pat = false) :
    strReplace s pat repl = s :=
  strReplaceF_of_not_contains pat repl s.length s h

/-- `contentPart` never touches the tool-call accumulator. -/
theorem contentPart_acc (hide structured : Bool) (s : AggSt) (c : Str) :
    (contentPart hide structured s c).1.acc = s.acc := by
  unfold contentPart
  dsimp only
  split_ifs <;> rfl

/-! ## C1 -/

/-- C1: for every incoming content fragment, the open/close markers are
processed before accumulation, and the entire marker-stripped remainder is
appended to exactly one accumulator — the reasoning accumulator when the
state after all marker transitions is `INSIDE_THINK` (`inside_think = true`),
else the answer accumulator — never split across the two: the other
accumulator is left unchanged (the `if·then·else` appends the whole
remainder to one side and nothing to the other). -/
theorem c1_fragment_classified_by_state_after_markers
    (hide_thinking structured_output : Bool) (s : AggSt) (c : Str) :
    (contentPart hide_thinking structured_output s c).1.inside_think
        = specStateAfterMarkers s.inside_think c ∧
    (contentPart hide_thinking structured_output s c).1.thinking
        = s.thinking ++
          (if specStateAfterMarkers s.inside_think c then specStrippedContent c else []) ∧
    (contentPart hide_thinking structured_output s c).1.answer
        = s.answer ++
          (if specStateAfterMarkers s.inside_think c then [] else specStrippedContent c) := by
  unfold contentPart specStateAfterMarkers specStrippedContent
  by_cases h1 : strContains c thinkOpen
  · by_cases h2 : strContains (strReplace c thinkOpen []) thinkClose
    · simp [h1, h2]
    · simp [h1, h2, strReplace_of_not_contains _ thinkClose [] (by simpa using h2)]
  · have hc1 : strReplace c thinkOpen [] = c :=
      strReplace_of_not_contains _ _ _ (by simpa using h1)
    rw [hc1]
    by_cases h2 : strContains c thinkClose
    · simp [h1, h2, hc1]
    · have hc2 : strReplace c thinkClose [] = c :=
        strReplace_of_not_contains _ _ _ (by simpa using h2)
      cases hb : s.inside_think <;>
        simp [h1, h2, hb, hc1, hc2]

/-! ## C2 -/

/-- The single-chunk delta sequence whose content fragment is
`"<think>hello</think>world"`. -/
def c2Chunks : List Delta :=
  [⟨none, some "<think>hello</think>world".toList, none⟩]

/-- C2 fails on the code: for the fragment `"<think>hello</think>world"` the
aggregator does NOT append `"hello"` to the reasoning accumulator and
`"world"` to the answer accumulator — both markers are stripped, the state
after both transitions is `OUTSIDE_THINK`, and the whole remainder goes to
the answer accumulator. -/
theorem c2_counterexample :
    ¬ ((runChunks false false initSt c2Chunks).1.thinking = "hello".toList ∧
       (runChunks false false initSt c2Chunks).1.answer = "world".toList) := by
  intro h
  exact absurd h.1 (by decide)

/-- C2 amended: for the single-chunk fragment `"<think>hello</think>world"`,
the aggregator appends the whole marker-stripped remainder `"helloworld"` to
the answer accumulator and nothing to the reasoning accumulator (the
fragment is classified by the state after both marker transitions, which is
`OUTSIDE_THINK`). -/
theorem c2_amended_whole_remainder_to_answer :
    (runChunks false false initSt c2Chunks).1.thinking = [] ∧
    (runChunks false false initSt c2Chunks).1.answer = "helloworld".toList ∧
    (runChunks false false initSt c2Chunks).1.inside_think = false := by
  refine ⟨rfl, rfl, rfl⟩

/-! ## Association-list lemmas for the tool-call accumulator -/

/-- A non-truthy optional string defaults to the empty string. -/
theorem getD_nil_of_not_truthy (o : Option Str) (h : ¬ truthyStr o = true) :
    o.getD [] = [] := by
  cases o with
  | none => rfl
  | some l =>
    cases l with
    | nil => rfl
    | cons c cs => exact absurd rfl h

/-- A non-truthy optional string falls back to the `or` default. -/
theorem pyOrElse_of_not_truthy (o : Option Str) (d : Str) (h : ¬ truthyStr o = true) :
    pyOrElse o d = d := by
  cases o with
  | none => rfl
  | some l =>
    cases l with
    | nil => rfl
    | cons c cs => exact absurd rfl h

/-- Looking up after appending a fresh entry at the end. -/
theorem alookup_append (a : List (Str × ToolAcc)) (k : Str) (v : ToolAcc) (t : Str) :
    alookup (a ++ [(k, v)]) t =
      match alookup a t with
      | some w => some w
      | none => if k = t then some v else none := by
  induction a with
  | nil => rfl
  | cons e rest ih =>
    obtain ⟨k', v'⟩ := e
    simp only [List.cons_append, alookup, List.append_eq]
    by_cases h : k' = t
    · rw [if_pos h, if_pos h]
    · rw [if_neg h, if_neg h, ih]

/-- Updating at a key rewrites exactly that key's entry. -/
theorem alookup_aupdate_self (a : List (Str × ToolAcc)) (k : Str) (f : ToolAcc → ToolAcc) :
    alookup (aupdate a k f) k = (alookup a k).map f := by
  induction a with
  | nil => rfl
  | cons e rest ih =>
    obtain ⟨k', v'⟩ := e
    simp only [aupdate]
    by_cases h : k' = k
    · rw [if_pos h]
      simp only [alookup, if_pos h]
      rfl
    · rw [if_neg h]
      simp only [alookup, if_neg h, ih]

/-- Updating at one key leaves every other key's entry untouched. -/
theorem alookup_aupdate_ne (a : List (Str × ToolAcc)) (k t : Str) (f : ToolAcc → ToolAcc)
    (h : k ≠ t) : alookup (aupdate a k f) t = alookup a t := by
  induction a with
  | nil => rfl
  | cons e rest ih =>
    obtain ⟨k', v'⟩ := e
    simp only [aupdate]
    by_cases h' : k' = k
    · rw [if_pos h']
      have hkt : ¬ k' = t := by rw [h']; exact h
      simp only [alookup, if_neg hkt]
    · rw [if_neg h']
      by_cases h'' : k' = t
      · simp only [alookup, if_pos h'']
      · simp only [alookup, if_neg h'', ih]

/-- A successful lookup names an entry of the list. -/
theorem alookup_mem (a : List (Str × ToolAcc)) (t : Str) (v : ToolAcc)
    (h : alookup a t = some v) : (t, v) ∈ a := by
  induction a with
  | nil => exact absurd h (by simp [alookup])
  | cons e rest ih =>
    obtain ⟨k', v'⟩ := e
    simp only [alookup] at h
    by_cases h' : k' = t
    · rw [if_pos h'] at h
      obtain rfl : v' = v := Option.some.inj h
      subst h'
      exact List.mem_cons_self _ _
    · rw [if_neg h'] at h
      exact List.mem_cons_of_mem _ (ih h)

/-- A key present among the keys looks up successfully. -/
theorem mem_keys_isSome (a : List (Str × ToolAcc)) (t : Str)
    (h : t ∈ a.map Prod.fst) : (alookup a t).isSome = true := by
  induction a with
  | nil => simp at h
  | cons e rest ih =>
    obtain ⟨k', v'⟩ := e
    simp only [alookup]
    by_cases h' : k' = t
    · rw [if_pos h']
      rfl
    · rw [if_neg h']
      apply ih
      simp only [List.map_cons, List.mem_cons] at h
      rcases h with h | h
      · exact absurd h.symm h'
      · exact h

/-- Updating never changes the key sequence. -/
theorem aupdate_keys (a : List (Str × ToolAcc)) (k : Str) (f : ToolAcc → ToolAcc) :
    (aupdate a k f).map Prod.fst = a.map Prod.fst := by
  induction a with
  | nil => rfl
  | cons e rest ih =>
    obtain ⟨k', v'⟩ := e
    simp only [aupdate]
    by_cases h : k' = k
    · rw [if_pos h]
      simp
    · rw [if_neg h]
      simp [ih]

/-- A name-only update leaves every accumulated argument buffer unchanged. -/
theorem getArgs_aupdate_name (a : List (Str × ToolAcc)) (k : Str) (n : Str) (t : Str) :
    getArgs (aupdate a k (fun e => { e with name := n })) t = getArgs a t := by
  unfold getArgs
  by_cases h : k = t
  · subst h
    rw [alookup_aupdate_self]
    cases alookup a k <;> rfl
  · rw [alookup_aupdate_ne a k t _ h]

/-- An argument-append update at a present key appends to exactly that
buffer. -/
theorem getArgs_aupdate_args_self (a : List (Str × ToolAcc)) (k : Str) (xs : Str)
    (h : (alookup a k).isSome = true) :
    getArgs (aupdate a k (fun e => { e with arguments := e.arguments ++ xs })) k
      = getArgs a k ++ xs := by
  unfold getArgs
  rw [alookup_aupdate_self]
  obtain ⟨w, hw⟩ := Option.isSome_iff_exists.mp h
  rw [hw]
  rfl

/-- Any update at one key leaves other keys' argument buffers unchanged. -/
theorem getArgs_aupdate_of_ne (a : List (Str × ToolAcc)) (k t : Str) (f : ToolAcc → ToolAcc)
    (h : k ≠ t) : getArgs (aupdate a k f) t = getArgs a t := by
  unfold getArgs
  rw [alookup_aupdate_ne a k t f h]

/-- Appending a fresh entry only affects lookups at its own key. -/
theorem getArgs_append_of_ne (a : List (Str × ToolAcc)) (k : Str) (v : ToolAcc) (t : Str)
    (h : k ≠ t) : getArgs (a ++ [(k, v)]) t = getArgs a t := by
  unfold getArgs
  rw [alookup_append]
  cases alookup a t
  · simp [if_neg h]
  · rfl

/-- One tool-call fragment appends its (truthy) argument text to exactly the
buffer of its (defaulted) id, and to no other buffer. -/
theorem getArgs_toolFragStep (acc : List (Str × ToolAcc)) (f : ToolFrag) (tid : Str) :
    getArgs (toolFragStep acc f) tid
      = getArgs acc tid ++ (if pyIdOr0 f.id = tid then f.arguments.getD [] else []) := by
  unfold toolFragStep
  dsimp only
  rcases hl : alookup acc (pyIdOr0 f.id) with _ | w
  · dsimp only
    have hins : (alookup (acc ++ [(pyIdOr0 f.id, ⟨f.name.getD [], []⟩)])
        (pyIdOr0 f.id)).isSome = true := by
      rw [alookup_append, hl]
      simp
    have hinsArgs : getArgs (acc ++ [(pyIdOr0 f.id, ⟨f.name.getD [], []⟩)])
        (pyIdOr0 f.id) = [] := by
      unfold getArgs
      rw [alookup_append, hl]
      simp
    have haccArgs : getArgs acc (pyIdOr0 f.id) = [] := by
      unfold getArgs
      rw [hl]
    by_cases hn : truthyStr f.name = true
    · rw [if_pos hn]
      by_cases ha : truthyStr f.arguments = true
      · rw [if_pos ha]
        by_cases hid : pyIdOr0 f.id = tid
        · rw [← hid, if_pos rfl,
            getArgs_aupdate_args_self _ _ _ (by rw [alookup_aupdate_self]; simpa using hins),
            getArgs_aupdate_name, hinsArgs, haccArgs]
        · rw [if_neg hid, List.append_nil, getArgs_aupdate_of_ne _ _ _ _ hid,
            getArgs_aupdate_of_ne _ _ _ _ hid, getArgs_append_of_ne _ _ _ _ hid]
      · rw [if_neg ha, getD_nil_of_not_truthy _ ha, ite_self, List.append_nil,
          getArgs_aupdate_name]
        by_cases hid : pyIdOr0 f.id = tid
        · rw [← hid, hinsArgs, haccArgs]
        · rw [getArgs_append_of_ne _ _ _ _ hid]
    · rw [if_neg hn]
      by_cases ha : truthyStr f.arguments = true
      · rw [if_pos ha]
        by_cases hid : pyIdOr0 f.id = tid
        · rw [← hid, if_pos rfl, getArgs_aupdate_args_self _ _ _ hins, hinsArgs, haccArgs]
        · rw [if_neg hid, List.append_nil, getArgs_aupdate_of_ne _ _ _ _ hid,
            getArgs_append_of_ne _ _ _ _ hid]
      · rw [if_neg ha, getD_nil_of_not_truthy _ ha, ite_self, List.append_nil]
        by_cases hid : pyIdOr0 f.id = tid
        · rw [← hid, hinsArgs, haccArgs]
        · rw [getArgs_append_of_ne _ _ _ _ hid]
  · dsimp only
    have hs : (alookup acc (pyIdOr0 f.id)).isSome = true := by
      rw [hl]
      rfl
    by_cases hn : truthyStr f.name = true
    · rw [if_pos hn]
      by_cases ha : truthyStr f.arguments = true
      · rw [if_pos ha]
        by_cases hid : pyIdOr0 f.id = tid
        · rw [← hid, if_pos rfl,
            getArgs_aupdate_args_self _ _ _ (by rw [alookup_aupdate_self]; simpa using hs),
            getArgs_aupdate_name]
        · rw [if_neg hid, List.append_nil, getArgs_aupdate_of_ne _ _ _ _ hid,
            getArgs_aupdate_of_ne _ _ _ _ hid]
      · rw [if_neg ha, getD_nil_of_not_truthy _ ha, ite_self, List.append_nil,
          getArgs_aupdate_name]
    · rw [if_neg hn]
      by_cases ha : truthyStr f.arguments = true
      · rw [if_pos ha]
        by_cases hid : pyIdOr0 f.id = tid
        · rw [← hid, if_pos rfl, getArgs_aupdate_args_self _ _ _ hs]
        · rw [if_neg hid, List.append_nil, getArgs_aupdate_of_ne _ _ _ _ hid]
      · rw [if_neg ha, getD_nil_of_not_truthy _ ha, ite_self, List.append_nil]

/-- An absent or empty tool-call fragment list defaults to `[]`. -/
theorem getD_nil_of_not_truthyTC (o : Option (List ToolFrag)) (h : ¬ truthyTC o = true) :
    o.getD [] = [] := by
  cases o with
  | none => rfl
  | some l =>
    cases l with
    | nil => rfl
    | cons f fs => exact absurd rfl h

/-- Folding a fragment list appends each id's argument fragments, in arrival
order, to that id's buffer. -/
theorem getArgs_foldl (fs : List ToolFrag) :
    ∀ (acc : List (Str × ToolAcc)) (tid : Str),
      getArgs (fs.foldl toolFragStep acc) tid = getArgs acc tid ++ argFrags tid fs := by
  induction fs with
  | nil =>
    intro acc tid
    simp [argFrags]
  | cons f fs ih =>
    intro acc tid
    simp only [List.foldl_cons, argFrags]
    rw [ih, getArgs_toolFragStep, List.append_assoc]

/-- One delta chunk appends exactly its own argument fragments for an id to
that id's buffer. -/
theorem chunkStep_getArgs (hide structured : Bool) (s : AggSt) (d : Delta) (tid : Str) :
    getArgs (chunkStep hide structured s d).1.acc tid
      = getArgs s.acc tid ++ argFrags tid (d.tool_calls.getD []) := by
  unfold chunkStep
  dsimp only
  by_cases hg : (!(truthyStr d.content || truthyTC d.tool_calls || truthyStr d.reasoning)) = true
  · rw [if_pos hg]
    have ht : truthyTC d.tool_calls = false := by
      simp only [Bool.not_eq_eq_eq_not, Bool.not_true, Bool.or_eq_false_iff] at hg
      exact hg.1.2
    rw [getD_nil_of_not_truthyTC _ (by rw [ht]; exact Bool.false_ne_true)]
    simp [argFrags]
  · rw [if_neg hg]
    by_cases hc : truthyStr d.content = true
    · rw [if_pos hc]
      by_cases hr : truthyStr d.reasoning = true
      · rw [if_pos hr]
        by_cases ht : truthyTC d.tool_calls = true
        · rw [if_pos ht]
          dsimp only
          rw [getArgs_foldl, contentPart_acc]
        · rw [if_neg ht]
          dsimp only
          rw [contentPart_acc, getD_nil_of_not_truthyTC _ ht]
          simp [argFrags]
      · rw [if_neg hr]
        by_cases ht : truthyTC d.tool_calls = true
        · rw [if_pos ht]
          dsimp only
          rw [getArgs_foldl, contentPart_acc]
        · rw [if_neg ht]
          rw [contentPart_acc, getD_nil_of_not_truthyTC _ ht]
          simp [argFrags]
    · rw [if_neg hc]
      by_cases hr : truthyStr d.reasoning = true
      · rw [if_pos hr]
        by_cases ht : truthyTC d.tool_calls = true
        · rw [if_pos ht]
          dsimp only
          rw [getArgs_foldl]
        · rw [if_neg ht]
          dsimp only
          rw [getD_nil_of_not_truthyTC _ ht]
          simp [argFrags]
      · rw [if_neg hr]
        by_cases ht : truthyTC d.tool_calls = true
        · rw [if_pos ht]
          dsimp only
          rw [getArgs_foldl]
        · rw [if_neg ht]
          rw [getD_nil_of_not_truthyTC _ ht]
          simp [argFrags]

/-- Across the whole delta loop, each id's buffer is exactly the prior buffer
followed by the concatenation, in arrival order, of that id's argument
fragments. -/
theorem runChunks_getArgs (hide structured : Bool) :
    ∀ (chunks : List Delta) (s : AggSt) (tid : Str),
      getArgs (runChunks hide structured s chunks).1.acc tid
        = getArgs s.acc tid ++ argFragsChunks tid chunks := by
  intro chunks
  induction chunks with
  | nil =>
    intro s tid
    simp [runChunks, argFragsChunks]
  | cons d ds ih =>
    intro s tid
    simp only [runChunks, argFragsChunks]
    rw [ih, chunkStep_getArgs, List.append_assoc]

/-! ## C3 -/

/-- C3: tool-call argument text is never JSON-parsed mid-stream — at stream
end each id's accumulated buffer is exactly the concatenation, in arrival
order, of that id's argument fragments; finalization parses that buffer (or
`"{}"` if it is empty) as JSON and produces the finalized call; whenever that
parse fails, the finalized arguments are the raw concatenated text under the
`"_raw"` escape key instead of an exception. -/
theorem c3_arguments_concatenated_and_parsed_only_at_end
    (hide_thinking structured_output : Bool) (chunks : List Delta) (tid : Str) (d : ToolAcc)
    (hlook : alookup (runChunks hide_thinking structured_output initSt chunks).1.acc tid
      = some d) :
    d.arguments = argFragsChunks tid chunks ∧
    (⟨tid, d.name, finalizeArgs (argFragsChunks tid chunks)⟩ : FinalToolCall)
        ∈ finalizeToolCalls (runChunks hide_thinking structured_output initSt chunks).1.acc ∧
    (∀ args : Str,
      json_loads (if args.isEmpty then "{}".toList else args) = none →
        finalizeArgs args = JVal.obj [("_raw".toList, JVal.s args)]) := by
  have hconcat : d.arguments = argFragsChunks tid chunks := by
    have h := runChunks_getArgs hide_thinking structured_output chunks initSt tid
    unfold getArgs at h
    rw [hlook] at h
    simpa [initSt, alookup] using h
  refine ⟨hconcat, ?_, ?_⟩
  · have hmem := alookup_mem _ _ _ hlook
    have := List.mem_map_of_mem
      (fun e : Str × ToolAcc => (⟨e.1, e.2.name, finalizeArgs e.2.arguments⟩ : FinalToolCall))
      hmem
    rw [← hconcat]
    exact this
  · intro args hfail
    unfold finalizeArgs
    rw [hfail]

/-- The delta sequence delivering `"{\"a\":1"` then `"}"` as argument
fragments for the single id `"call1"`. -/
def c3Chunks : List Delta :=
  [⟨none, none, some [⟨some "call1".toList, some "get".toList, some "\x7b\"a\":1".toList⟩]⟩,
   ⟨none, none, some [⟨some "call1".toList, none, some "\x7d".toList⟩]⟩]

/-- Witness for C3 at the spec's concrete input: the two fragments
concatenate to `"{\"a\":1}"` and finalize to the parsed object
`{"a": 1}`. -/
theorem c3_witness :
    (⟨"call1".toList, "get".toList, JVal.obj [("a".toList, JVal.i 1)]⟩ : FinalToolCall)
      ∈ finalizeToolCalls (runChunks false false initSt c3Chunks).1.acc ∧
    argFragsChunks "call1".toList c3Chunks = "\x7b\"a\":1\x7d".toList := by
  have h := c3_arguments_concatenated_and_parsed_only_at_end false false c3Chunks
    "call1".toList ⟨"get".toList, "\x7b\"a\":1\x7d".toList⟩ rfl
  exact ⟨h.2.1, rfl⟩

/-! ## C9 -/

/-- A fragment whose (defaulted) id is new appends it as a fresh last key. -/
theorem toolFragStep_keys_fresh (acc : List (Str × ToolAcc)) (f : ToolFrag)
    (hl : alookup acc (pyIdOr0 f.id) = none) :
    (toolFragStep acc f).map Prod.fst = acc.map Prod.fst ++ [pyIdOr0 f.id] := by
  unfold toolFragStep
  dsimp only
  rw [hl]
  dsimp only
  by_cases hn : truthyStr f.name = true
  · rw [if_pos hn]
    by_cases ha : truthyStr f.arguments = true
    · rw [if_pos ha, aupdate_keys, aupdate_keys, List.map_append]
      rfl
    · rw [if_neg ha, aupdate_keys, List.map_append]
      rfl
  · rw [if_neg hn]
    by_cases ha : truthyStr f.arguments = true
    · rw [if_pos ha, aupdate_keys, List.map_append]
      rfl
    · rw [if_neg ha, List.map_append]
      rfl

/-- A fragment whose (defaulted) id already has an entry keeps the key
sequence unchanged. -/
theorem toolFragStep_keys_stable (acc : List (Str × ToolAcc)) (f : ToolFrag) (w : ToolAcc)
    (hl : alookup acc (pyIdOr0 f.id) = some w) :
    (toolFragStep acc f).map Prod.fst = acc.map Prod.fst := by
  unfold toolFragStep
  dsimp only
  rw [hl]
  dsimp only
  by_cases hn : truthyStr f.name = true
  · rw [if_pos hn]
    by_cases ha : truthyStr f.arguments = true
    · rw [if_pos ha, aupdate_keys, aupdate_keys]
    · rw [if_neg ha, aupdate_keys]
  · rw [if_neg hn]
    by_cases ha : truthyStr f.arguments = true
    · rw [if_pos ha, aupdate_keys]
    · rw [if_neg ha]

/-- Folding id-less fragments keeps the key sequence inside `{"0"}`. -/
theorem foldl_keys_of_id_less (fs : List ToolFrag) :
    ∀ (acc : List (Str × ToolAcc)),
      (∀ f ∈ fs, truthyStr f.id = false) →
      (acc.map Prod.fst = [] ∨ acc.map Prod.fst = [['0']]) →
      ((fs.foldl toolFragStep acc).map Prod.fst = []
        ∨ (fs.foldl toolFragStep acc).map Prod.fst = [['0']]) := by
  induction fs with
  | nil =>
    intro acc _ hinv
    exact hinv
  | cons f fs ih =>
    intro acc hall hinv
    rw [List.foldl_cons]
    refine ih _ (fun g hg => hall g (List.mem_cons_of_mem f hg)) ?_
    have hfid : ¬ truthyStr f.id = true := by
      rw [hall f (List.mem_cons_self f fs)]
      exact Bool.false_ne_true
    have hid : pyIdOr0 f.id = ['0'] := pyOrElse_of_not_truthy _ _ hfid
    rcases hinv with h0 | h0
    · have hemp : acc = [] := List.map_eq_nil_iff.mp h0
      subst hemp
      right
      rw [toolFragStep_keys_fresh _ _ (by rw [hid]; rfl), hid]
      rfl
    · have hsome : (alookup acc (pyIdOr0 f.id)).isSome = true := by
        rw [hid]
        exact mem_keys_isSome acc ['0'] (by rw [h0]; exact List.mem_singleton.mpr rfl)
      obtain ⟨w, hw⟩ := Option.isSome_iff_exists.mp hsome
      rw [toolFragStep_keys_stable _ _ _ hw]
      right
      exact h0

/-- One chunk of id-less fragments keeps the accumulator keys inside
`{"0"}`. -/
theorem chunkStep_keys_of_id_less (hide structured : Bool) (s : AggSt) (d : Delta)
    (hall : ∀ f ∈ d.tool_calls.getD [], truthyStr f.id = false)
    (hinv : s.acc.map Prod.fst = [] ∨ s.acc.map Prod.fst = [['0']]) :
    ((chunkStep hide structured s d).1.acc.map Prod.fst = []
      ∨ (chunkStep hide structured s d).1.acc.map Prod.fst = [['0']]) := by
  unfold chunkStep
  dsimp only
  by_cases hg : (!(truthyStr d.content || truthyTC d.tool_calls || truthyStr d.reasoning)) = true
  · rw [if_pos hg]
    exact hinv
  · rw [if_neg hg]
    by_cases hc : truthyStr d.content = true
    · rw [if_pos hc]
      by_cases hr : truthyStr d.reasoning = true
      · rw [if_pos hr]
        by_cases ht : truthyTC d.tool_calls = true
        · rw [if_pos ht]
          dsimp only
          refine foldl_keys_of_id_less _ _ hall ?_
          rw [contentPart_acc]
          exact hinv
        · rw [if_neg ht]
          dsimp only
          rw [contentPart_acc]
          exact hinv
      · rw [if_neg hr]
        by_cases ht : truthyTC d.tool_calls = true
        · rw [if_pos ht]
          dsimp only
          refine foldl_keys_of_id_less _ _ hall ?_
          rw [contentPart_acc]
          exact hinv
        · rw [if_neg ht]
          rw [contentPart_acc]
          exact hinv
    · rw [if_neg hc]
      by_cases hr : truthyStr d.reasoning = true
      · rw [if_pos hr]
        by_cases ht : truthyTC d.tool_calls = true
        · rw [if_pos ht]
          dsimp only
          exact foldl_keys_of_id_less _ _ hall hinv
        · rw [if_neg ht]
          dsimp only
          exact hinv
      · rw [if_neg hr]
        by_cases ht : truthyTC d.tool_calls = true
        · rw [if_pos ht]
          dsimp only
          exact foldl_keys_of_id_less _ _ hall hinv
        · rw [if_neg ht]
          exact hinv

/-- The whole delta loop over id-less fragments keeps the accumulator keys
inside `{"0"}`. -/
theorem runChunks_keys_of_id_less (hide structured : Bool) :
    ∀ (chunks : List Delta) (s : AggSt),
      (∀ d ∈ chunks, ∀ f ∈ d.tool_calls.getD [], truthyStr f.id = false) →
      (s.acc.map Prod.fst = [] ∨ s.acc.map Prod.fst = [['0']]) →
      ((runChunks hide structured s chunks).1.acc.map Prod.fst = []
        ∨ (runChunks hide structured s chunks).1.acc.map Prod.fst = [['0']]) := by
  intro chunks
  induction chunks with
  | nil =>
    intro s _ hinv
    exact hinv
  | cons d ds ih =>
    intro s hall hinv
    simp only [runChunks]
    refine ih _ (fun d' hd' => hall d' (List.mem_cons_of_mem d hd')) ?_
    exact chunkStep_keys_of_id_less hide structured s d
      (hall d (List.mem_cons_self d ds)) hinv

/-- C9: every tool-call fragment whose id is missing or empty accumulates
under the single fallback key `"0"`, so all id-less fragments of a stream
merge into at most one accumulated tool call, whose key is `"0"` and whose
argument buffer is the concatenation of all their argument fragments. -/
theorem c9_id_less_fragments_merge_under_zero
    (hide_thinking structured_output : Bool) (chunks : List Delta)
    (hids : ∀ d ∈ chunks, ∀ f ∈ d.tool_calls.getD [], truthyStr f.id = false) :
    (runChunks hide_thinking structured_output initSt chunks).1.acc.length ≤ 1 ∧
    (∀ e ∈ (runChunks hide_thinking structured_output initSt chunks).1.acc, e.1 = ['0']) ∧
    getArgs (runChunks hide_thinking structured_output initSt chunks).1.acc ['0']
      = argFragsChunks ['0'] chunks := by
  have hkeys := runChunks_keys_of_id_less hide_thinking structured_output chunks initSt hids
    (Or.inl rfl)
  constructor
  · have hlen : ((runChunks hide_thinking structured_output initSt chunks).1.acc.map
        Prod.fst).length ≤ 1 := by
      rcases hkeys with h | h <;> rw [h] <;> simp
    rw [List.length_map] at hlen
    exact hlen
  constructor
  · intro e he
    have : e.1 ∈ (runChunks hide_thinking structured_output initSt chunks).1.acc.map
        Prod.fst := List.mem_map_of_mem Prod.fst he
    rcases hkeys with h | h
    · rw [h] at this
      exact absurd this (List.not_mem_nil _)
    · rw [h] at this
      exact List.mem_singleton.mp this
  · have h := runChunks_getArgs hide_thinking structured_output chunks initSt ['0']
    simpa [initSt, getArgs, alookup] using h

/-- The id-less two-fragment stream used to witness C9: one fragment with no
id at all and one with the empty-string id. -/
def c9Chunks : List Delta :=
  [⟨none, none, some [⟨none, some "f".toList, some "x".toList⟩,
                      ⟨some [], none, some "y".toList⟩]⟩]

/-- Witness for C9: both id-less fragments of `c9Chunks` merge into a single
accumulator entry under key `"0"` holding `"xy"`. -/
theorem c9_witness :
    (runChunks false false initSt c9Chunks).1.acc.length ≤ 1 ∧
    (∀ e ∈ (runChunks false false initSt c9Chunks).1.acc, e.1 = ['0']) ∧
    getArgs (runChunks false false initSt c9Chunks).1.acc ['0']
      = argFragsChunks ['0'] c9Chunks := by
  exact c9_id_less_fragments_merge_under_zero false false c9Chunks (by decide)

/-! ## C10 -/

/-- C10: a tool-call id whose accumulated argument buffer is empty at stream
end finalizes to the empty object `{}` — the empty buffer is parsed as
`"{}"` — not to the `"_raw"` fallback and not to an error. -/
theorem c10_empty_buffer_finalizes_to_empty_object
    (acc : List (Str × ToolAcc)) (tid : Str) (d : ToolAcc)
    (hlook : alookup acc tid = some d) (hempty : d.arguments = []) :
    (⟨tid, d.name, JVal.obj []⟩ : FinalToolCall) ∈ finalizeToolCalls acc ∧
    finalizeArgs [] = JVal.obj [] := by
  refine ⟨?_, rfl⟩
  have hmem := alookup_mem _ _ _ hlook
  have h : (⟨tid, d.name, finalizeArgs d.arguments⟩ : FinalToolCall) ∈ finalizeToolCalls acc :=
    List.mem_map_of_mem
      (fun e : Str × ToolAcc => (⟨e.1, e.2.name, finalizeArgs e.2.arguments⟩ : FinalToolCall))
      hmem
  rw [hempty] at h
  exact h

/-- Witness for C10: an accumulator entry with an empty buffer finalizes to
`{}`. -/
theorem c10_witness :
    (⟨['0'], "f".toList, JVal.obj []⟩ : FinalToolCall)
      ∈ finalizeToolCalls [(['0'], ⟨"f".toList, []⟩)] ∧
    finalizeArgs [] = JVal.obj [] :=
  c10_empty_buffer_finalizes_to_empty_object [(['0'], ⟨"f".toList, []⟩)] ['0']
    ⟨"f".toList, []⟩ rfl rfl

/-! ## Event-shape lemmas -/

/-- A live text event is neither `done` nor `final`. -/
theorem isStreamEv_shape (e : Event) (h : isStreamEv e = true) :
    isDone e = false ∧ isFinalEv e = false := by
  cases e <;> simp_all [isStreamEv, isDone, isFinalEv]

/-- Content processing yields only live text events. -/
theorem contentPart_events (hide structured : Bool) (s : AggSt) (c : Str) :
    ∀ e ∈ (contentPart hide structured s c).2, isStreamEv e = true := by
  intro e he
  unfold contentPart at he
  dsimp only at he
  split_ifs at he <;> simp_all [isStreamEv]

/-- One delta chunk yields only live text events. -/
theorem chunkStep_events (hide structured : Bool) (s : AggSt) (d : Delta) :
    ∀ e ∈ (chunkStep hide structured s d).2, isStreamEv e = true := by
  intro e he
  unfold chunkStep at he
  dsimp only at he
  by_cases hg : (!(truthyStr d.content || truthyTC d.tool_calls || truthyStr d.reasoning)) = true
  · rw [if_pos hg] at he
    exact absurd he (List.not_mem_nil e)
  · rw [if_neg hg] at he
    by_cases ht : truthyTC d.tool_calls = true
    · rw [if_pos ht] at he
      dsimp only at he
      by_cases hr : truthyStr d.reasoning = true
      · rw [if_pos hr] at he
        dsimp only at he
        rcases List.mem_append.mp he with h | h
        · by_cases hc : truthyStr d.content = true
          · rw [if_pos hc] at h
            exact contentPart_events hide structured s (d.content.getD []) e h
          · rw [if_neg hc] at h
            exact absurd h (List.not_mem_nil e)
        · by_cases hh : (!hide) = true
          · rw [if_pos hh] at h
            simp only [List.mem_singleton] at h
            subst h
            rfl
          · rw [if_neg hh] at h
            exact absurd h (List.not_mem_nil e)
      · rw [if_neg hr] at he
        by_cases hc : truthyStr d.content = true
        · rw [if_pos hc] at he
          exact contentPart_events hide structured s (d.content.getD []) e he
        · rw [if_neg hc] at he
          exact absurd he (List.not_mem_nil e)
    · rw [if_neg ht] at he
      by_cases hr : truthyStr d.reasoning = true
      · rw [if_pos hr] at he
        dsimp only at he
        rcases List.mem_append.mp he with h | h
        · by_cases hc : truthyStr d.content = true
          · rw [if_pos hc] at h
            exact contentPart_events hide structured s (d.content.getD []) e h
          · rw [if_neg hc] at h
            exact absurd h (List.not_mem_nil e)
        · by_cases hh : (!hide) = true
          · rw [if_pos hh] at h
            simp only [List.mem_singleton] at h
            subst h
            rfl
          · rw [if_neg hh] at h
            exact absurd h (List.not_mem_nil e)
      · rw [if_neg hr] at he
        by_cases hc : truthyStr d.content = true
        · rw [if_pos hc] at he
          exact contentPart_events hide structured s (d.content.getD []) e he
        · rw [if_neg hc] at he
          exact absurd he (List.not_mem_nil e)

/-- The whole delta loop yields only live text events. -/
theorem runChunks_events (hide structured : Bool) :
    ∀ (chunks : List Delta) (s : AggSt) (e : Event),
      e ∈ (runChunks hide structured s chunks).2 → isStreamEv e = true := by
  intro chunks
  induction chunks with
  | nil =>
    intro s e he
    exact absurd he (List.not_mem_nil e)
  | cons d ds ih =>
    intro s e he
    simp only [runChunks] at he
    rcases List.mem_append.mp he with h | h
    · exact chunkStep_events hide structured s d e h
    · exact ih _ e h

/-- Every dispatch-loop event is a `tool_result` or a `tool_call`. -/
theorem dispatchLoop_events (reg : Str → Option Callee) :
    ∀ (calls : List FinalToolCall) (e : Event), e ∈ (dispatchLoop reg calls).1 →
      (∃ n r, e = Event.tool_result n r) ∨ (∃ tc, e = Event.tool_call tc) := by
  intro calls
  induction calls with
  | nil =>
    intro e he
    exact absurd he (List.not_mem_nil e)
  | cons tc rest ih =>
    intro e he
    unfold dispatchLoop at he
    dsimp only at he
    rcases hreg : reg tc.name with _ | f
    · rw [hreg] at he
      dsimp only at he
      rcases List.mem_cons.mp he with h | h
      · exact Or.inr ⟨tc, h⟩
      · exact ih e h
    · rw [hreg] at he
      dsimp only at he
      rcases hfa : f tc.arguments with _ | r
      · rw [hfa] at he
        dsimp only at he
        exact ih e he
      · rw [hfa] at he
        dsimp only at he
        rcases List.mem_cons.mp he with h | h
        · exact Or.inl ⟨tc.name, r, h⟩
        · exact ih e h

/-- Inversion: a `tool_result` event names a registered call whose invocation
returned that result. -/
theorem dispatchLoop_toolResult_mem (reg : Str → Option Callee) :
    ∀ (calls : List FinalToolCall) (n : Str) (r : JVal),
      Event.tool_result n r ∈ (dispatchLoop reg calls).1 →
      ∃ tc, tc ∈ calls ∧ tc.name = n ∧ ∃ f, reg tc.name = some f ∧ f tc.arguments = some r := by
  intro calls
  induction calls with
  | nil =>
    intro n r h
    exact absurd h (List.not_mem_nil _)
  | cons tc rest ih =>
    intro n r h
    unfold dispatchLoop at h
    dsimp only at h
    rcases hreg : reg tc.name with _ | f
    · rw [hreg] at h
      dsimp only at h
      rcases List.mem_cons.mp h with h' | h'
      · exact Event.noConfusion h'
      · obtain ⟨tc', htc', hname, f, hf, hfr⟩ := ih n r h'
        exact ⟨tc', List.mem_cons_of_mem _ htc', hname, f, hf, hfr⟩
    · rw [hreg] at h
      dsimp only at h
      rcases hfa : f tc.arguments with _ | r'
      · rw [hfa] at h
        dsimp only at h
        obtain ⟨tc', htc', hname, f', hf, hfr⟩ := ih n r h
        exact ⟨tc', List.mem_cons_of_mem _ htc', hname, f', hf, hfr⟩
      · rw [hfa] at h
        dsimp only at h
        rcases List.mem_cons.mp h with h' | h'
        · injection h' with h1 h2
          subst h1
          subst h2
          exact ⟨tc, List.mem_cons_self tc rest, rfl, f, hreg, hfa⟩
        · obtain ⟨tc', htc', hname, f', hf, hfr⟩ := ih n r h'
          exact ⟨tc', List.mem_cons_of_mem _ htc', hname, f', hf, hfr⟩

/-- Inversion: a `tool_call` event carries an unregistered pending call. -/
theorem dispatchLoop_toolCall_mem (reg : Str → Option Callee) :
    ∀ (calls : List FinalToolCall) (t : FinalToolCall),
      Event.tool_call t ∈ (dispatchLoop reg calls).1 → t ∈ calls ∧ reg t.name = none := by
  intro calls
  induction calls with
  | nil =>
    intro t h
    exact absurd h (List.not_mem_nil _)
  | cons tc rest ih =>
    intro t h
    unfold dispatchLoop at h
    dsimp only at h
    rcases hreg : reg tc.name with _ | f
    · rw [hreg] at h
      dsimp only at h
      rcases List.mem_cons.mp h with h' | h'
      · injection h' with h1
        subst h1
        exact ⟨List.mem_cons_self _ _, hreg⟩
      · obtain ⟨ht, hr⟩ := ih t h'
        exact ⟨List.mem_cons_of_mem _ ht, hr⟩
    · rw [hreg] at h
      dsimp only at h
      rcases hfa : f tc.arguments with _ | r'
      · rw [hfa] at h
        dsimp only at h
        obtain ⟨ht, hr⟩ := ih t h
        exact ⟨List.mem_cons_of_mem _ ht, hr⟩
      · rw [hfa] at h
        dsimp only at h
        rcases List.mem_cons.mp h with h' | h'
        · exact Event.noConfusion h'
        · obtain ⟨ht, hr⟩ := ih t h'
          exact ⟨List.mem_cons_of_mem _ ht, hr⟩

/-- Inversion: every still-pending call after dispatch is an unregistered
input call. -/
theorem dispatchLoop_pend_mem (reg : Str → Option Callee) :
    ∀ (calls : List FinalToolCall) (t : FinalToolCall),
      t ∈ (dispatchLoop reg calls).2 → t ∈ calls ∧ reg t.name = none := by
  intro calls
  induction calls with
  | nil =>
    intro t h
    exact absurd h (List.not_mem_nil _)
  | cons tc rest ih =>
    intro t h
    unfold dispatchLoop at h
    dsimp only at h
    rcases hreg : reg tc.name with _ | f
    · rw [hreg] at h
      dsimp only at h
      rcases List.mem_cons.mp h with h' | h'
      · subst h'
        exact ⟨List.mem_cons_self t rest, hreg⟩
      · obtain ⟨ht, hr⟩ := ih t h'
        exact ⟨List.mem_cons_of_mem _ ht, hr⟩
    · rw [hreg] at h
      dsimp only at h
      rcases hfa : f tc.arguments with _ | r'
      · rw [hfa] at h
        dsimp only at h
        obtain ⟨ht, hr⟩ := ih t h
        exact ⟨List.mem_cons_of_mem _ ht, hr⟩
      · rw [hfa] at h
        dsimp only at h
        obtain ⟨ht, hr⟩ := ih t h
        exact ⟨List.mem_cons_of_mem _ ht, hr⟩

/-- Filtering by a predicate false on every element gives the empty list. -/
theorem filter_eq_nil_of_all_false (p : Event → Bool) (l : List Event)
    (h : ∀ e ∈ l, p e = false) : l.filter p = [] :=
  List.filter_eq_nil_iff.mpr fun a ha => by
    rw [h a ha]
    exact Bool.false_ne_true

/-- The event sequence of `stream_response` decomposes as a prefix free of
`done` and `final` events, then the optional terminal summary, then the
`done` sentinel. -/
theorem stream_response_decomp (reg : Str → Option Callee)
    (structured_output final hide_thinking : Bool) (chunks : List Delta) :
    ∃ pre m,
      stream_response reg structured_output final hide_thinking chunks
        = pre ++ (if final = true then [Event.final m] else []) ++ [Event.done] ∧
      ∀ e ∈ pre, isDone e = false ∧ isFinalEv e = false := by
  refine ⟨(runChunks hide_thinking structured_output initSt chunks).2
      ++ (if structured_output = true
          then [Event.answer (if structured_output = true
            then decodeStructured (runChunks hide_thinking structured_output initSt chunks).1.answer
            else AVal.str (runChunks hide_thinking structured_output initSt chunks).1.answer)]
          else [])
      ++ (dispatchLoop reg (finalizeToolCalls
          (runChunks hide_thinking structured_output initSt chunks).1.acc)).1,
    mkSummary hide_thinking (runChunks hide_thinking structured_output initSt chunks).1.thinking
      (if structured_output = true
        then decodeStructured (runChunks hide_thinking structured_output initSt chunks).1.answer
        else AVal.str (runChunks hide_thinking structured_output initSt chunks).1.answer)
      (dispatchLoop reg (finalizeToolCalls
        (runChunks hide_thinking structured_output initSt chunks).1.acc)).2,
    rfl, ?_⟩
  intro e he
  rcases List.mem_append.mp he with he' | he'
  · rcases List.mem_append.mp he' with h | h
    · exact isStreamEv_shape e (runChunks_events hide_thinking structured_output chunks initSt e h)
    · by_cases hs : structured_output = true
      · rw [if_pos hs] at h
        simp only [List.mem_singleton] at h
        subst h
        exact ⟨rfl, rfl⟩
      · rw [if_neg hs] at h
        exact absurd h (List.not_mem_nil e)
  · rcases dispatchLoop_events reg _ e he' with ⟨n, r, rfl⟩ | ⟨tc, rfl⟩
    · exact ⟨rfl, rfl⟩
    · exact ⟨rfl, rfl⟩

/-! ## C4 -/

/-- C4: every completed delta sequence (including the empty one) produces
exactly one `done` sentinel event, and it is last; when the terminal summary
is requested (`final = true`), exactly one `final` summary event immediately
precedes it. -/
theorem c4_one_done_last_final_immediately_before
    (reg : Str → Option Callee) (structured_output final hide_thinking : Bool)
    (chunks : List Delta) :
    ((stream_response reg structured_output final hide_thinking chunks).filter isDone).length
        = 1 ∧
    (stream_response reg structured_output final hide_thinking chunks).getLast?
        = some Event.done ∧
    (final = true →
      ((stream_response reg structured_output final hide_thinking chunks).filter
          isFinalEv).length = 1 ∧
      ∃ p m, stream_response reg structured_output final hide_thinking chunks
        = p ++ [Event.final m, Event.done]) := by
  obtain ⟨pre, m, heq, hpre⟩ :=
    stream_response_decomp reg structured_output final hide_thinking chunks
  rw [heq]
  have h1 : pre.filter isDone = [] :=
    filter_eq_nil_of_all_false _ _ fun e he => (hpre e he).1
  have h1f : pre.filter isFinalEv = [] :=
    filter_eq_nil_of_all_false _ _ fun e he => (hpre e he).2
  refine ⟨?_, ?_, ?_⟩
  · have h2 : (if final = true then [Event.final m] else []).filter isDone = [] := by
      by_cases hf : final = true
      · rw [if_pos hf]
        rfl
      · rw [if_neg hf]
        rfl
    rw [List.filter_append, List.filter_append, h1, h2]
    rfl
  · exact List.getLast?_concat _
  · intro hf
    subst hf
    rw [if_pos rfl]
    constructor
    · rw [List.filter_append, List.filter_append, h1f]
      rfl
    · exact ⟨pre, m, by simp⟩

/-- Witness for C4 on the empty (zero-content) delta sequence with the
terminal summary requested. -/
theorem c4_witness :
    ((stream_response (fun _ => none) false true true []).filter isDone).length = 1 ∧
    (stream_response (fun _ => none) false true true []).getLast? = some Event.done ∧
    ((stream_response (fun _ => none) false true true []).filter isFinalEv).length = 1 ∧
    ∃ p m, stream_response (fun _ => none) false true true []
      = p ++ [Event.final m, Event.done] := by
  have h := c4_one_done_last_final_immediately_before (fun _ => none) false true true []
  exact ⟨h.1, h.2.1, (h.2.2 rfl).1, (h.2.2 rfl).2⟩

/-! ## C5 -/

/-- C5: the structured-output decoder first attempts strict JSON parsing; on
failure it unescapes backslash-escape sequences and re-parses; if that also
fails (including when the unescape itself raises), the answer value is the
original raw text unchanged.  The decoder is a total function — it never
raises — and when a schema was requested the stream emits exactly the decoded
value of the accumulated answer as the (single) answer event. -/
theorem c5_structured_decode_strict_then_unescape_then_raw (s : Str) :
    (∀ j, json_loads s = some j → decodeStructured s = AVal.json j) ∧
    (json_loads s = none →
      ∀ dec, unicodeUnescape s = some dec →
        (∀ j, json_loads dec = some j → decodeStructured s = AVal.json j) ∧
        (json_loads dec = none → decodeStructured s = AVal.str s)) ∧
    (json_loads s = none → unicodeUnescape s = none → decodeStructured s = AVal.str s) ∧
    (∀ (reg : Str → Option Callee) (final hide_thinking : Bool) (chunks : List Delta),
      Event.answer (decodeStructured (runChunks hide_thinking true initSt chunks).1.answer)
        ∈ stream_response reg true final hide_thinking chunks) := by
  refine ⟨?_, ?_, ?_, ?_⟩
  · intro j hj
    unfold decodeStructured
    rw [hj]
  · intro hs dec hdec
    constructor
    · intro j hj
      unfold decodeStructured
      rw [hs, hdec]
      dsimp only
      rw [hj]
    · intro hj
      unfold decodeStructured
      rw [hs, hdec]
      dsimp only
      rw [hj]
  · intro hs hu
    unfold decodeStructured
    rw [hs, hu]
  · intro reg final hide_thinking chunks
    unfold stream_response
    dsimp only
    rw [if_pos rfl, if_pos rfl]
    exact List.mem_append.mpr (Or.inl (List.mem_append.mpr (Or.inl (List.mem_append.mpr
      (Or.inl (List.mem_append.mpr (Or.inr (List.mem_singleton.mpr rfl))))))))

/-- Witness for C5: `"not json"` fails strict parsing, survives unescaping
unchanged, fails re-parsing, and so is returned raw; the stream emits the
decoded answer event. -/
theorem c5_witness :
    decodeStructured "not json".toList = AVal.str "not json".toList ∧
    Event.answer (decodeStructured (runChunks true true initSt
        [⟨none, some "not json".toList, none⟩]).1.answer)
      ∈ stream_response (fun _ => none) true true true
          [⟨none, some "not json".toList, none⟩] := by
  have h := c5_structured_decode_strict_then_unescape_then_raw "not json".toList
  exact ⟨(h.2.1 rfl "not json".toList rfl).2 rfl,
    h.2.2.2 (fun _ => none) true true [⟨none, some "not json".toList, none⟩]⟩

/-! ## C6 -/

/-- C6 fails on the code: an `image`-tagged block that supplies none of the
three sources is neither rewritten nor rejected — the normalization loop has
no `else` branch and raises nothing, so the block survives normalization
unchanged as an `image` variant (there is no `UnsupportedContentError`
anywhere in the code). -/
theorem c6_counterexample :
    normalizeBlock (ψ := Unit) (fun _ => []) (fun _ => []) (CBlock.image none none none)
      = CBlock.image none none none ∧
    normalizeMessages (ψ := Unit) true (fun _ => []) (fun _ => [])
        [[CBlock.image none none none]]
      = [[CBlock.image none none none]] :=
  ⟨rfl, rfl⟩

/-- C6 amended: during normalization, every `image` block supplying at least
one of the three sources is rewritten to a canonical `image_url` block; a
block supplying none of them is left unchanged — it survives as an `image`
variant and normalization does not fail. -/
theorem c6_amended_image_rewritten_or_survives
    {ψ : Type} (encPathPNG : Str → Str) (encPilPNG : ψ → Str)
    (p : Option Str) (pil : Option ψ) (url : Option UrlData) :
    ((p ≠ none ∨ pil ≠ none ∨ url ≠ none) →
      ∃ u, normalizeBlock encPathPNG encPilPNG (CBlock.image p pil url)
        = CBlock.image_url u) ∧
    normalizeBlock encPathPNG encPilPNG (CBlock.image none none none)
      = CBlock.image none none none := by
  constructor
  · intro hsrc
    cases p with
    | some path => exact ⟨_, rfl⟩
    | none =>
      cases pil with
      | some img => exact ⟨_, rfl⟩
      | none =>
        cases url with
        | some u =>
          cases u with
          | str sv => exact ⟨_, rfl⟩
          | dict dv => exact ⟨_, rfl⟩
        | none =>
          rcases hsrc with h | h | h <;> exact absurd rfl h
  · rfl

/-- Witness for C6 (amended): a path-sourced image block is rewritten to an
`image_url` block, and the sourceless block survives unchanged. -/
theorem c6_witness :
    (∃ u, normalizeBlock (ψ := Unit) (fun _ => "B64".toList) (fun _ => [])
      (CBlock.image (some "img.png".toList) none none) = CBlock.image_url u) ∧
    normalizeBlock (ψ := Unit) (fun _ => "B64".toList) (fun _ => [])
      (CBlock.image none none none) = CBlock.image none none none := by
  have h := c6_amended_image_rewritten_or_survives (ψ := Unit)
    (fun _ => "B64".toList) (fun _ => []) (some "img.png".toList) none none
  exact ⟨h.1 (Or.inl (by simp)), h.2⟩

/-! ## C8 -/

/-- The parameter loop marks exactly the non-`return` annotation names as
required, in order, and emits a property for each of them. -/
theorem compileParams_required (l : List (Str × Str)) :
    ∀ r, compileParams l = some r →
      r.2 = (l.map Prod.fst).filter (fun k => k != "return".toList) ∧
      r.1.map Prod.fst = (l.map Prod.fst).filter (fun k => k != "return".toList) := by
  induction l with
  | nil =>
    intro r hr
    obtain rfl : (([], []) : List (Str × Str) × List Str) = r := Option.some.inj hr
    exact ⟨rfl, rfl⟩
  | cons e rest ih =>
    obtain ⟨k, v⟩ := e
    intro r hr
    simp only [compileParams] at hr
    by_cases hk : k = "return".toList
    · rw [if_pos hk] at hr
      have hb : (k != "return".toList) = false := bne_eq_false_iff_eq.mpr hk
      obtain ⟨h1, h2⟩ := ih r hr
      simp only [List.map_cons]
      rw [List.filter_cons, if_neg (by rw [hb]; exact Bool.false_ne_true)]
      exact ⟨h1, h2⟩
    · rw [if_neg hk] at hr
      rcases htv : typesTable v with _ | ty
      · rw [htv] at hr
        exact absurd hr (by simp)
      · rw [htv] at hr
        rcases hcp : compileParams rest with _ | r'
        · rw [hcp] at hr
          exact absurd hr (by simp)
        · rw [hcp] at hr
          obtain rfl : ((k, ty) :: r'.1, k :: r'.2) = r := Option.some.inj hr
          have hb : (k != "return".toList) = true := bne_iff_ne.mpr hk
          obtain ⟨h1, h2⟩ := ih r' hcp
          simp only [List.map_cons]
          rw [List.filter_cons, if_pos hb]
          exact ⟨by rw [h1], by rw [h2]⟩

/-- C8: for every native callable the compiler accepts, the emitted schema's
`required` list contains exactly the declared parameter names other than the
`return` annotation, in declaration order — every declared parameter is
required, and each also gets a property entry. -/
theorem c8_every_declared_parameter_required (t : NativeTool) (s : FunSchema)
    (h : compileTool t = some s) :
    s.required = (t.annots.map Prod.fst).filter (fun k => k != "return".toList) ∧
    s.properties.map Prod.fst
      = (t.annots.map Prod.fst).filter (fun k => k != "return".toList) := by
  unfold compileTool at h
  rcases hdoc : t.doc with _ | doc
  · rw [hdoc] at h
    exact absurd h (by simp)
  · rw [hdoc] at h
    rcases hcp : compileParams t.annots with _ | r
    · rw [hcp] at h
      exact absurd h (by simp)
    · rw [hcp] at h
      obtain rfl : (⟨pyStrip t.name, pyStrip doc, r.1, r.2⟩ : FunSchema) = s :=
        Option.some.inj h
      exact compileParams_required t.annots r hcp

/-- The native tool used to witness C8: parameters `a : int` and `b : str`
plus a `return` annotation. -/
def c8Tool : NativeTool :=
  ⟨"add".toList, some "add two values".toList,
   [("a".toList, "int".toList), ("b".toList, "str".toList),
    ("return".toList, "int".toList)]⟩

/-- Witness for C8: the compiled schema marks exactly `a` and `b` required
(the `return` annotation excluded). -/
theorem c8_witness :
    ∃ s, compileTool c8Tool = some s
      ∧ s.required = ["a".toList, "b".toList]
      ∧ s.properties.map Prod.fst = ["a".toList, "b".toList] := by
  refine ⟨⟨"add".toList, "add two values".toList,
    [("a".toList, "integer".toList), ("b".toList, "string".toList)],
    ["a".toList, "b".toList]⟩, rfl, ?_, ?_⟩
  · exact ((c8_every_declared_parameter_required c8Tool _ rfl).1).trans rfl
  · exact ((c8_every_declared_parameter_required c8Tool _ rfl).2).trans rfl

/-! ## C7 -/

/-- The terminal summary carries a `tool_calls` field only when the pending
list is nonempty, and then it is exactly the pending list. -/
theorem mkSummary_tool_calls (hide : Bool) (thinking : Str) (av : AVal)
    (pend : List FinalToolCall) (tcs : List FinalToolCall)
    (h : (mkSummary hide thinking av pend).tool_calls = some tcs) : tcs = pend := by
  unfold mkSummary at h
  split_ifs at h <;>
    first
      | exact Option.noConfusion h
      | exact (Option.some.inj h).symm

/-- Every event of `stream_response` is a live text event, an answer event,
a dispatch event, the terminal summary (when requested), or the `done`
sentinel. -/
theorem stream_response_mem_cases (reg : Str → Option Callee)
    (structured_output final hide_thinking : Bool) (chunks : List Delta) (e : Event)
    (he : e ∈ stream_response reg structured_output final hide_thinking chunks) :
    isStreamEv e = true ∨
    (∃ j, e = Event.answer j) ∨
    e ∈ (dispatchLoop reg (finalizeToolCalls
        (runChunks hide_thinking structured_output initSt chunks).1.acc)).1 ∨
    (final = true ∧
      e = Event.final (mkSummary hide_thinking
        (runChunks hide_thinking structured_output initSt chunks).1.thinking
        (if structured_output = true
          then decodeStructured (runChunks hide_thinking structured_output initSt chunks).1.answer
          else AVal.str (runChunks hide_thinking structured_output initSt chunks).1.answer)
        (dispatchLoop reg (finalizeToolCalls
          (runChunks hide_thinking structured_output initSt chunks).1.acc)).2)) ∨
    e = Event.done := by
  unfold stream_response at he
  dsimp only at he
  rcases List.mem_append.mp he with h | h
  · rcases List.mem_append.mp h with h | h
    · rcases List.mem_append.mp h with h | h
      · rcases List.mem_append.mp h with h | h
        · exact Or.inl (runChunks_events hide_thinking structured_output chunks initSt e h)
        · by_cases hs : structured_output = true
          · rw [if_pos hs] at h
            simp only [List.mem_singleton] at h
            exact Or.inr (Or.inl ⟨_, h⟩)
          · rw [if_neg hs] at h
            exact absurd h (List.not_mem_nil e)
      · exact Or.inr (Or.inr (Or.inl h))
    · by_cases hf : final = true
      · rw [if_pos hf] at h
        simp only [List.mem_singleton] at h
        exact Or.inr (Or.inr (Or.inr (Or.inl ⟨hf, h⟩)))
      · rw [if_neg hf] at h
        exact absurd h (List.not_mem_nil e)
  · simp only [List.mem_singleton] at h
    exact Or.inr (Or.inr (Or.inr (Or.inr h)))

/-- C7: a finalized tool call whose name matches a registered callable whose
invocation raises is removed from the pending list — it appears neither as a
pending `tool_call` event, nor as a `tool_result` event (given its name is
unique among the finalized calls), nor in the terminal summary's
`tool_calls` — and the stream still completes normally with its terminal
summary followed by the `done` sentinel. -/
theorem c7_raising_tool_call_dropped_and_stream_completes
    (reg : Str → Option Callee) (structured_output hide_thinking : Bool)
    (chunks : List Delta) (tc : FinalToolCall) (f : Callee)
    (hmem : tc ∈ finalizeToolCalls
      (runChunks hide_thinking structured_output initSt chunks).1.acc)
    (hreg : reg tc.name = some f)
    (hraise : f tc.arguments = none)
    (huniq : ∀ tc' ∈ finalizeToolCalls
        (runChunks hide_thinking structured_output initSt chunks).1.acc,
      tc'.name = tc.name → tc' = tc) :
    (∀ r, Event.tool_result tc.name r
        ∉ stream_response reg structured_output true hide_thinking chunks) ∧
    Event.tool_call tc ∉ stream_response reg structured_output true hide_thinking chunks ∧
    tc ∉ (dispatchLoop reg (finalizeToolCalls
        (runChunks hide_thinking structured_output initSt chunks).1.acc)).2 ∧
    (∀ m, Event.final m ∈ stream_response reg structured_output true hide_thinking chunks →
      ∀ tcs, m.tool_calls = some tcs → tc ∉ tcs) ∧
    (stream_response reg structured_output true hide_thinking chunks).getLast?
      = some Event.done ∧
    ∃ p m, stream_response reg structured_output true hide_thinking chunks
      = p ++ [Event.final m, Event.done] := by
  have hpend : tc ∉ (dispatchLoop reg (finalizeToolCalls
      (runChunks hide_thinking structured_output initSt chunks).1.acc)).2 := by
    intro hp
    have h := (dispatchLoop_pend_mem reg _ tc hp).2
    rw [hreg] at h
    exact Option.noConfusion h
  refine ⟨?_, ?_, hpend, ?_, ?_, ?_⟩
  · intro r hm
    rcases stream_response_mem_cases reg structured_output true hide_thinking chunks _ hm with
      h | ⟨j, hj⟩ | h | ⟨_, hj⟩ | hj
    · exact Bool.noConfusion h
    · exact Event.noConfusion hj
    · obtain ⟨tc', htc', hname, f', hf', hfr⟩ := dispatchLoop_toolResult_mem reg _ _ _ h
      obtain rfl : tc' = tc := huniq tc' htc' hname
      rw [hreg] at hf'
      obtain rfl : f = f' := Option.some.inj hf'
      rw [hraise] at hfr
      exact Option.noConfusion hfr
    · exact Event.noConfusion hj
    · exact Event.noConfusion hj
  · intro hm
    rcases stream_response_mem_cases reg structured_output true hide_thinking chunks _ hm with
      h | ⟨j, hj⟩ | h | ⟨_, hj⟩ | hj
    · exact Bool.noConfusion h
    · exact Event.noConfusion hj
    · have h2 := (dispatchLoop_toolCall_mem reg _ _ h).2
      rw [hreg] at h2
      exact Option.noConfusion h2
    · exact Event.noConfusion hj
    · exact Event.noConfusion hj
  · intro m hm tcs htcs
    rcases stream_response_mem_cases reg structured_output true hide_thinking chunks _ hm with
      h | ⟨j, hj⟩ | h | ⟨_, hj⟩ | hj
    · exact Bool.noConfusion h
    · exact Event.noConfusion hj
    · rcases dispatchLoop_events reg _ _ h with ⟨n, r, hj⟩ | ⟨tc', hj⟩
      · exact Event.noConfusion hj
      · exact Event.noConfusion hj
    · injection hj with hj'
      subst hj'
      have := mkSummary_tool_calls _ _ _ _ _ htcs
      subst this
      exact hpend
    · exact Event.noConfusion hj
  · obtain ⟨pre, m, heq, _⟩ :=
      stream_response_decomp reg structured_output true hide_thinking chunks
    rw [heq]
    exact List.getLast?_concat _
  · obtain ⟨pre, m, heq, _⟩ :=
      stream_response_decomp reg structured_output true hide_thinking chunks
    rw [if_pos rfl] at heq
    exact ⟨pre, m, by rw [heq]; simp⟩

/-- The delta stream used to witness C7: one finalized call id `c1` named
`boom` with argument text `"{}"`. -/
def c7Chunks : List Delta :=
  [⟨none, none, some [⟨some "c1".toList, some "boom".toList, some "{}".toList⟩]⟩]

/-- The registered-callable map used to witness C7: `boom` is registered and
always raises. -/
def c7Reg : Str → Option Callee :=
  fun n => if n = "boom".toList then some (fun _ => none) else none

/-- The finalized call produced by `c7Chunks`. -/
def c7Call : FinalToolCall := ⟨"c1".toList, "boom".toList, JVal.obj []⟩

/-- Witness for C7: the raising `boom` call yields no `tool_result` event,
no pending `tool_call` event, is absent from the pending list, and the
stream still ends with the `done` sentinel. -/
theorem c7_witness :
    (∀ r, Event.tool_result "boom".toList r
        ∉ stream_response c7Reg false true true c7Chunks) ∧
    Event.tool_call c7Call ∉ stream_response c7Reg false true true c7Chunks ∧
    c7Call ∉ (dispatchLoop c7Reg (finalizeToolCalls
        (runChunks true false initSt c7Chunks).1.acc)).2 ∧
    (stream_response c7Reg false true true c7Chunks).getLast? = some Event.done := by
  have h := c7_raising_tool_call_dropped_and_stream_completes c7Reg false true c7Chunks
    c7Call (fun _ => none) (List.mem_singleton.mpr rfl) rfl rfl
    (fun tc' h' _ => List.mem_singleton.mp h')
  exact ⟨fun r => h.1 r, h.2.1, h.2.2.1, h.2.2.2.2.1⟩

end LLMWrapper
